import Mathlib

/-!
Verification of the clipboard-manager history store
(`src/history/manager.rs`, `src/models/entry.rs`, `src/utils/constants.rs`).

The store is embedded shallowly:
* `ClipboardEntry` / `ImageInfo` mirror `models/entry.rs`;
* `Store` carries the in-memory deque (`entries`, front = newest), the
  newline-delimited backing file (`histFile`, one `Option PersistedEntry`
  per line, `none` meaning a line serde fails to parse) and the blob
  directory (`imagesDir`, an association list filename ↦ bytes);
* Rust's `DefaultHasher` uses are abstracted into a `Hasher` record of
  the three hash applications the code performs, and
  `image::load_from_memory` into a `decode` parameter; theorems are
  parametric over both, and concrete stand-ins instantiate them in
  witnesses.
-/

namespace CM

/-- `ClipboardContentType` from `models/entry.rs`. -/
inductive ClipboardContentType where
  | Text
  | Image
deriving DecidableEq, Repr

/-- `ImageInfo` from `models/entry.rs`. -/
structure ImageInfo where
  width : Nat
  height : Nat
  size_bytes : Nat
deriving DecidableEq, Repr

/-- `ClipboardEntry` from `models/entry.rs`. -/
structure ClipboardEntry where
  content_type : ClipboardContentType
  content : String
  timestamp : Int
  image_info : Option ImageInfo
  content_hash : Nat
deriving DecidableEq, Repr

/-- The serialized form of an entry: `content_hash` is `#[serde(skip)]`,
so only the other four fields reach the backing file. -/
structure PersistedEntry where
  content_type : ClipboardContentType
  content : String
  timestamp : Int
  image_info : Option ImageInfo
deriving DecidableEq, Repr

/-- The three applications of `DefaultHasher` in the source:
`new_text` hashes the content string, `add_image` hashes the raw bytes,
and `compute_hash` on an image entry hashes `(content, timestamp)`. -/
structure Hasher where
  hashText : String → Nat
  hashBytes : List Nat → Nat
  hashImageMeta : String → Int → Nat

/-- `MAX_HISTORY` from `utils/constants.rs`. Operations are parametric in
the bound so the spec's `MAX_HISTORY = 2` scenarios are statable. -/
def MAX_HISTORY : Nat := 50

/-- Rust's `str::trim`: strip whitespace from both ends. (Defined over
the character list rather than through `String.trim` so that concrete
instances reduce inside the kernel.) -/
def rustTrim (s : String) : String :=
  ⟨((s.data.dropWhile Char.isWhitespace).reverse.dropWhile
      Char.isWhitespace).reverse⟩

/-- `ClipboardEntry::new_text`. -/
def new_text (H : Hasher) (content : String) (now : Int) : ClipboardEntry :=
  { content_type := ClipboardContentType.Text
    content := content
    timestamp := now
    image_info := none
    content_hash := H.hashText content }

/-- `ClipboardEntry::new_image`. -/
def new_image (filename : String) (info : ImageInfo) (hash : Nat)
    (now : Int) : ClipboardEntry :=
  { content_type := ClipboardContentType.Image
    content := filename
    timestamp := now
    image_info := some info
    content_hash := hash }

/-- `ClipboardEntry::compute_hash`: recompute `content_hash` from the
persisted fields (text: hash of content; image: hash of content and
timestamp). -/
def compute_hash (H : Hasher) (e : ClipboardEntry) : ClipboardEntry :=
  { e with
    content_hash :=
      match e.content_type with
      | ClipboardContentType.Text => H.hashText e.content
      | ClipboardContentType.Image => H.hashImageMeta e.content e.timestamp }

/-- Serialization per serde derives: drop `content_hash`. -/
def persist (e : ClipboardEntry) : PersistedEntry :=
  { content_type := e.content_type
    content := e.content
    timestamp := e.timestamp
    image_info := e.image_info }

/-- Deserialization followed by `compute_hash`, as `load` does for each
parsed line (serde leaves `content_hash` at its default 0). -/
def parseEntry (H : Hasher) (pe : PersistedEntry) : ClipboardEntry :=
  compute_hash H
    { content_type := pe.content_type
      content := pe.content
      timestamp := pe.timestamp
      image_info := pe.image_info
      content_hash := 0 }

/-- `entries.iter().position(p)` followed by `entries.remove(pos)`,
returning the removed element and the remainder. -/
def removeFirstMatch {α : Type} (p : α → Bool) : List α → Option (α × List α)
  | [] => none
  | x :: xs =>
    if p x then some (x, xs)
    else
      match removeFirstMatch p xs with
      | some (y, rest) => some (y, x :: rest)
      | none => none

/-- The remove-if-present part of the duplicate check (the removed value
is discarded, as in `add_text` and `load`). -/
def eraseFirstMatch {α : Type} (p : α → Bool) (l : List α) : List α :=
  match removeFirstMatch p l with
  | some pr => pr.2
  | none => l

/-- The full store state: in-memory deque (front = newest), backing file
lines, and image-blob directory. -/
structure Store where
  entries : List ClipboardEntry
  histFile : List (Option PersistedEntry)
  imagesDir : List (String × List Nat)
deriving DecidableEq, Repr

/-- `fs::remove_file` on a blob. -/
def removeBlob (dir : List (String × List Nat)) (fn : String) :
    List (String × List Nat) :=
  dir.filter (fun pr => !(pr.1 == fn))

/-- `fs::write` of a blob (an existing file of the same name is
overwritten). -/
def writeBlob (dir : List (String × List Nat)) (fn : String)
    (bytes : List Nat) : List (String × List Nat) :=
  (fn, bytes) :: removeBlob dir fn

/-- The loop body of `cleanup_old_entries`: while the deque is over
capacity, pop from the back, deleting the popped entry's blob when it is
an image. The `fuel` argument only bounds the iteration count so the
recursion is structural; each iteration shortens the deque by one, so
fuel equal to the initial length never runs out. -/
def cleanup_loop (maxH : Nat) :
    Nat → List ClipboardEntry → List (String × List Nat) →
    List ClipboardEntry × List (String × List Nat)
  | 0, entries, dir => (entries, dir)
  | fuel + 1, entries, dir =>
    if entries.length > maxH then
      match entries.getLast? with
      | some old =>
        cleanup_loop maxH fuel entries.dropLast
          (if old.content_type == ClipboardContentType.Image then
            removeBlob dir old.content
          else dir)
      | none => (entries, dir)
    else (entries, dir)

/-- `cleanup_old_entries`. -/
def cleanup_old_entries (maxH : Nat) (entries : List ClipboardEntry)
    (dir : List (String × List Nat)) :
    List ClipboardEntry × List (String × List Nat) :=
  cleanup_loop maxH entries.length entries dir

/-- `append_entry`: append one serialized entry as a line. -/
def append_entry (s : Store) (e : ClipboardEntry) : Store :=
  { s with histFile := s.histFile ++ [some (persist e)] }

/-- `add_text`. -/
def add_text (H : Hasher) (maxH : Nat) (s : Store) (content : String)
    (now : Int) : Store :=
  let trimmed := rustTrim content
  if trimmed.data.isEmpty then s
  else
    let e := new_text H trimmed now
    let entries1 :=
      eraseFirstMatch (fun x => x.content_hash == e.content_hash) s.entries
    let cleaned := cleanup_old_entries maxH (e :: entries1) s.imagesDir
    append_entry
      { s with entries := cleaned.1, imagesDir := cleaned.2 } e

/-- `add_image`; `dc` stands for `image::load_from_memory` returning the
pixel dimensions. -/
def add_image (H : Hasher) (dc : List Nat → Option (Nat × Nat))
    (maxH : Nat) (s : Store) (bytes : List Nat) (now : Int) :
    Store × Except String Unit :=
  let hash := H.hashBytes bytes
  match removeFirstMatch (fun x => x.content_hash == hash) s.entries with
  | some (existing, rest) =>
    (append_entry { s with entries := existing :: rest } existing,
     Except.ok ())
  | none =>
    let filename := "img_" ++ toString now ++ ".png"
    let dir1 := writeBlob s.imagesDir filename bytes
    match dc bytes with
    | none => ({ s with imagesDir := dir1 }, Except.error "Failed to load image")
    | some wh =>
      let info : ImageInfo :=
        { width := wh.1, height := wh.2, size_bytes := bytes.length }
      let e := new_image filename info hash now
      let cleaned := cleanup_old_entries maxH (e :: s.entries) dir1
      (append_entry
        { s with entries := cleaned.1, imagesDir := cleaned.2 } e,
       Except.ok ())

/-- `get_all`: snapshot of the sequence, newest first. -/
def get_all (s : Store) : List ClipboardEntry :=
  s.entries

/-- `clear`: delete all image blobs, empty the sequence, truncate the
file. -/
def clear (s : Store) : Store :=
  { entries := []
    histFile := []
    imagesDir :=
      s.entries.foldl
        (fun d e =>
          if e.content_type == ClipboardContentType.Image then
            removeBlob d e.content
          else d)
        s.imagesDir }

/-- One parsed line of `load`'s loop body: dedup by recomputed hash
(remove the old occurrence), then push the entry at the front. -/
def dedupPushFront (acc : List ClipboardEntry) (e : ClipboardEntry) :
    List ClipboardEntry :=
  e :: eraseFirstMatch (fun x => x.content_hash == e.content_hash) acc

/-- One iteration of `load`'s line loop: a line that parses is deduped
and pushed at the front; a line that does not parse is skipped. -/
def loadStep (H : Hasher) (acc : List ClipboardEntry)
    (line : Option PersistedEntry) : List ClipboardEntry :=
  match line with
  | some pe => dedupPushFront acc (parseEntry H pe)
  | none => acc

/-- The replay loop of `load` over all file lines, before truncation. -/
def loadFull (H : Hasher) (lines : List (Option PersistedEntry)) :
    List ClipboardEntry :=
  lines.foldl (loadStep H) []

/-- The final truncation loop of `load`: while over capacity, pop from
the back. As in `cleanup_loop`, `fuel` only makes the recursion
structural. -/
def truncate_loop (maxH : Nat) : Nat → List ClipboardEntry → List ClipboardEntry
  | 0, l => l
  | fuel + 1, l =>
    if l.length > maxH then truncate_loop maxH fuel l.dropLast else l

/-- The capacity truncation at the end of `load`. -/
def truncateBack (maxH : Nat) (l : List ClipboardEntry) :
    List ClipboardEntry :=
  truncate_loop maxH l.length l

/-- `load`: replay the backing file, then truncate to capacity. -/
def load (H : Hasher) (maxH : Nat)
    (lines : List (Option PersistedEntry)) : List ClipboardEntry :=
  truncateBack maxH (loadFull H lines)

/-- `ClipboardHistory::new` against an existing data directory: the
in-memory state is whatever `load` reads back. -/
def new (H : Hasher) (maxH : Nat) (lines : List (Option PersistedEntry))
    (dir : List (String × List Nat)) : Store :=
  { entries := load H maxH lines, histFile := lines, imagesDir := dir }

/-- `rewrite_history`: recreate the file from the in-memory sequence,
oldest to newest. -/
def rewrite_history (s : Store) : Store :=
  { s with histFile := s.entries.reverse.map (fun e => some (persist e)) }

/-- `delete_entry`: remove the entry at `index` when in bounds (deleting
its blob if it is an image), then rewrite the file. -/
def delete_entry (s : Store) (index : Nat) : Store :=
  let s1 :=
    if index < s.entries.length then
      match s.entries[index]? with
      | some removed =>
        { s with
          entries := s.entries.eraseIdx index
          imagesDir :=
            if removed.content_type == ClipboardContentType.Image then
              removeBlob s.imagesDir removed.content
            else s.imagesDir }
      | none => s
    else s
  rewrite_history s1

/-- The store's mutating and clearing operations, for stating
whole-history invariants. -/
inductive Op where
  | addText (content : String) (now : Int)
  | addImage (bytes : List Nat) (now : Int)
  | deleteEntry (index : Nat)
  | clear
deriving Repr

/-- Apply one operation to the store. -/
def stepOp (H : Hasher) (dc : List Nat → Option (Nat × Nat)) (maxH : Nat)
    (s : Store) : Op → Store
  | Op.addText c now => add_text H maxH s c now
  | Op.addImage b now => (add_image H dc maxH s b now).1
  | Op.deleteEntry i => delete_entry s i
  | Op.clear => clear s

/-- Run a sequence of operations. -/
def runOps (H : Hasher) (dc : List Nat → Option (Nat × Nat)) (maxH : Nat)
    (ops : List Op) (s : Store) : Store :=
  ops.foldl (stepOp H dc maxH) s

/-- Concrete stand-in for `DefaultHasher` on strings, used only in
witnesses and counterexamples (theorems are parametric in the hasher). -/
def hashTextFn (s : String) : Nat :=
  s.toList.foldl (fun a c => a * 256 + c.toNat) 7

/-- Concrete stand-in for `DefaultHasher` on byte vectors. -/
def hashBytesFn (l : List Nat) : Nat :=
  l.foldl (fun a b => a * 256 + b) 3

/-- Concrete stand-in for `DefaultHasher` on `(filename, timestamp)`. -/
def hashMetaFn (s : String) (t : Int) : Nat :=
  hashTextFn s * 1000 + t.natAbs * 2 + 11

/-- Concrete hasher assembled from the stand-ins. -/
def Hc : Hasher :=
  { hashText := hashTextFn, hashBytes := hashBytesFn
    hashImageMeta := hashMetaFn }

/-- Concrete decoder that accepts every byte vector as a 1×1 image. -/
def dcOk : List Nat → Option (Nat × Nat) := fun _ => some (1, 1)

/-- Concrete decoder that rejects every byte vector. -/
def dcNone : List Nat → Option (Nat × Nat) := fun _ => none

/-- The store with empty data directory (empty file, no blobs). -/
def emptyStore : Store := { entries := [], histFile := [], imagesDir := [] }

/-- No two entries of the list share a `content_hash`. -/
def DistinctHashes (l : List ClipboardEntry) : Prop :=
  l.Pairwise (fun a b => a.content_hash ≠ b.content_hash)

instance : DecidablePred DistinctHashes := fun _ =>
  inferInstanceAs (Decidable (List.Pairwise _ _))

/-- The replay invariant: the in-memory sequence is the capacity-
truncated replay of the backing file. -/
def ReplaysFile (H : Hasher) (maxH : Nat) (s : Store) : Prop :=
  s.entries = (loadFull H s.histFile).take maxH

/-- The spec's Change Reconciler state: the store together with the
backing file's current modification time and the baseline modification
time the store recorded at its own last write. -/
structure ReconcilerState where
  store : Store
  fileMtime : Nat
  baseline : Nat

/-- Modelled from the spec: the Change Reconciler of §4.2, absent from
`manager.rs`, wrapped around `add_text` for comparison — before
mutating, stat the backing file; if its modification time is newer than
the recorded baseline, discard the in-memory sequence and reload from
disk (recomputing hashes), then apply the mutation to the freshly
loaded state. -/
def spec_add_text_reconciling (H : Hasher) (maxH : Nat)
    (w : ReconcilerState) (content : String) (now : Int) : Store :=
  let base :=
    if w.baseline < w.fileMtime then
      { w.store with entries := load H maxH w.store.histFile }
    else w.store
  add_text H maxH base content now

/-- A store observed after another process appended a text entry "z" to
the backing file (modification time advanced past the baseline) while
this process's in-memory sequence is still empty. -/
def staleState : ReconcilerState :=
  { store :=
      { entries := []
        histFile :=
          [some { content_type := ClipboardContentType.Text
                  content := "z", timestamp := 1, image_info := none }]
        imagesDir := [] }
    fileMtime := 1
    baseline := 0 }

/-- Three text entries "a", "b", "c" added in order to a fresh store. -/
def threeTexts : Store :=
  runOps Hc dcOk 50
    [Op.addText "a" 1, Op.addText "b" 2, Op.addText "c" 3]
    (new Hc 50 [] [])

/-- Two distinct decodable images captured within the same second
(Unix timestamp 5): bytes `[0]`, then bytes `[1]`. -/
def twoImagesSameSecond : Store :=
  (add_image Hc dcOk 50 (add_image Hc dcOk 50 emptyStore [0] 5).1
    [1] 5).1

/-- A store holding one image entry (bytes `[0]`, captured at second 5). -/
def oneImage : Store := (add_image Hc dcOk 50 emptyStore [0] 5).1

/-- The image entry held by `oneImage`: `hashBytesFn [0] = 768`. -/
def dupEntry : ClipboardEntry :=
  { content_type := ClipboardContentType.Image
    content := "img_5.png"
    timestamp := 5
    image_info := some { width := 1, height := 1, size_bytes := 1 }
    content_hash := 768 }

end CM

namespace CM

/-! ### Lemmas about `removeFirstMatch` and `eraseFirstMatch` -/

theorem removeFirstMatch_nil {α : Type} (p : α → Bool) :
    removeFirstMatch p [] = none := rfl

theorem removeFirstMatch_cons {α : Type} (p : α → Bool) (x : α)
    (xs : List α) :
    removeFirstMatch p (x :: xs) =
      if p x then some (x, xs)
      else
        match removeFirstMatch p xs with
        | some (y, rest) => some (y, x :: rest)
        | none => none := rfl

theorem eraseFirstMatch_nil {α : Type} (p : α → Bool) :
    eraseFirstMatch p [] = [] := rfl

theorem eraseFirstMatch_cons {α : Type} (p : α → Bool) (x : α)
    (xs : List α) :
    eraseFirstMatch p (x :: xs) =
      if p x then xs else x :: eraseFirstMatch p xs := by
  simp only [eraseFirstMatch, removeFirstMatch_cons]
  by_cases hp : p x
  · simp [hp]
  · simp only [hp, if_false]
    cases h : removeFirstMatch p xs with
    | none => simp
    | some pr => cases pr; simp

theorem removeFirstMatch_none_eraseFirstMatch {α : Type} (p : α → Bool)
    (l : List α) (h : removeFirstMatch p l = none) :
    eraseFirstMatch p l = l := by
  simp [eraseFirstMatch, h]

theorem removeFirstMatch_some_eraseFirstMatch {α : Type} (p : α → Bool)
    (l : List α) (x : α) (rest : List α)
    (h : removeFirstMatch p l = some (x, rest)) :
    eraseFirstMatch p l = rest := by
  simp [eraseFirstMatch, h]

theorem removeFirstMatch_none_forall {α : Type} (p : α → Bool) :
    ∀ l : List α, removeFirstMatch p l = none → ∀ x ∈ l, p x = false := by
  intro l
  induction l with
  | nil => intro _ x hx; cases hx
  | cons a xs ih =>
    intro h x hx
    rw [removeFirstMatch_cons] at h
    by_cases hp : p a
    · simp [hp] at h
    · rcases List.mem_cons.mp hx with hx | hx
      · subst hx; simpa using hp
      · apply ih _ _ hx
        simp only [hp, if_false] at h
        cases hr : removeFirstMatch p xs with
        | none => rfl
        | some pr => cases pr; rw [hr] at h; simp at h

theorem removeFirstMatch_some_get {α : Type} (p : α → Bool) :
    ∀ (l : List α) (x : α) (rest : List α),
      removeFirstMatch p l = some (x, rest) →
      p x = true ∧
        ∃ i, ∃ h : i < l.length,
          l.get ⟨i, h⟩ = x ∧ rest = l.eraseIdx i := by
  intro l
  induction l with
  | nil => intro x rest h; cases h
  | cons a xs ih =>
    intro x rest h
    rw [removeFirstMatch_cons] at h
    by_cases hp : p a
    · simp only [hp, if_true, Option.some.injEq, Prod.mk.injEq] at h
      obtain ⟨hx, hrest⟩ := h
      subst hx; subst hrest
      refine ⟨hp, 0, ?_, rfl, rfl⟩
      simp
    · cases hr : removeFirstMatch p xs with
      | none => rw [hr] at h; simp [hp] at h
      | some pr =>
        obtain ⟨y, r0⟩ := pr
        rw [hr] at h
        simp only [hp, Bool.false_eq_true, if_false, Option.some.injEq,
          Prod.mk.injEq] at h
        obtain ⟨hx, hrest⟩ := h
        subst hx
        obtain ⟨hpy, i, hi, hget, hr0⟩ := ih y r0 hr
        refine ⟨hpy, i + 1, Nat.succ_lt_succ hi, ?_, ?_⟩
        · simpa using hget
        · rw [← hrest, List.eraseIdx_cons_succ, hr0]

theorem removeFirstMatch_some_mem {α : Type} (p : α → Bool) (l : List α)
    (x : α) (rest : List α)
    (h : removeFirstMatch p l = some (x, rest)) : x ∈ l := by
  obtain ⟨_, i, hi, hget, _⟩ := removeFirstMatch_some_get p l x rest h
  rw [← hget]
  exact List.get_mem l i hi

theorem removeFirstMatch_some_sublist {α : Type} (p : α → Bool)
    (l : List α) (x : α) (rest : List α)
    (h : removeFirstMatch p l = some (x, rest)) : rest.Sublist l := by
  obtain ⟨_, i, hi, _, hrest⟩ := removeFirstMatch_some_get p l x rest h
  rw [hrest]
  exact List.eraseIdx_sublist l i

theorem removeFirstMatch_some_length {α : Type} (p : α → Bool)
    (l : List α) (x : α) (rest : List α)
    (h : removeFirstMatch p l = some (x, rest)) :
    rest.length + 1 = l.length := by
  obtain ⟨_, i, hi, _, hrest⟩ := removeFirstMatch_some_get p l x rest h
  rw [hrest]
  exact List.length_eraseIdx_add_one hi

theorem eraseFirstMatch_sublist {α : Type} (p : α → Bool) (l : List α) :
    (eraseFirstMatch p l).Sublist l := by
  cases h : removeFirstMatch p l with
  | none => rw [removeFirstMatch_none_eraseFirstMatch p l h]
  | some pr =>
    obtain ⟨x, rest⟩ := pr
    rw [removeFirstMatch_some_eraseFirstMatch p l x rest h]
    exact removeFirstMatch_some_sublist p l x rest h

/-! ### The truncation loops compute `List.take` -/

theorem truncate_loop_eq_take (maxH : Nat) :
    ∀ (fuel : Nat) (l : List ClipboardEntry), l.length ≤ fuel →
      truncate_loop maxH fuel l = l.take maxH := by
  intro fuel
  induction fuel with
  | zero =>
    intro l hl
    have : l = [] := List.eq_nil_of_length_eq_zero (Nat.le_zero.mp hl)
    subst this
    simp [truncate_loop]
  | succ f ih =>
    intro l hl
    rw [truncate_loop]
    by_cases h : l.length > maxH
    · rw [if_pos h, ih l.dropLast (by rw [List.length_dropLast]; omega)]
      rw [List.dropLast_eq_take, List.take_take]
      congr 1
      omega
    · rw [if_neg h, List.take_of_length_le (by omega)]

theorem truncateBack_eq_take (maxH : Nat) (l : List ClipboardEntry) :
    truncateBack maxH l = l.take maxH :=
  truncate_loop_eq_take maxH l.length l le_rfl

theorem cleanup_loop_fst (maxH : Nat) :
    ∀ (fuel : Nat) (l : List ClipboardEntry)
      (dir : List (String × List Nat)), l.length ≤ fuel →
      (cleanup_loop maxH fuel l dir).1 = l.take maxH := by
  intro fuel
  induction fuel with
  | zero =>
    intro l dir hl
    have : l = [] := List.eq_nil_of_length_eq_zero (Nat.le_zero.mp hl)
    subst this
    simp [cleanup_loop]
  | succ f ih =>
    intro l dir hl
    rw [cleanup_loop]
    by_cases h : l.length > maxH
    · rw [if_pos h]
      cases hgl : l.getLast? with
      | none =>
        rw [List.getLast?_eq_none_iff] at hgl
        subst hgl
        simp at h
      | some old =>
        rw [ih l.dropLast _ (by rw [List.length_dropLast]; omega)]
        rw [List.dropLast_eq_take, List.take_take]
        congr 1
        omega
    · rw [if_neg h, List.take_of_length_le (by omega)]

theorem cleanup_fst (maxH : Nat) (l : List ClipboardEntry)
    (dir : List (String × List Nat)) :
    (cleanup_old_entries maxH l dir).1 = l.take maxH :=
  cleanup_loop_fst maxH l.length l dir le_rfl

/-- Truncating after a dedup-erase commutes with truncating first: the
erased occurrence, when any, is the first match, so positions past the
truncation point never influence the first `k` survivors. -/
theorem take_eraseFirstMatch {α : Type} (p : α → Bool) :
    ∀ (L : List α) (k : Nat),
      List.take k (eraseFirstMatch p (List.take (k + 1) L)) =
        List.take k (eraseFirstMatch p L) := by
  intro L
  induction L with
  | nil => intro k; simp [eraseFirstMatch_nil]
  | cons a xs ih =>
    intro k
    rw [List.take_succ_cons, eraseFirstMatch_cons, eraseFirstMatch_cons]
    by_cases hp : p a
    · rw [if_pos hp, if_pos hp, List.take_take]
      congr 1
      omega
    · rw [if_neg hp, if_neg hp]
      cases k with
      | zero => simp
      | succ j =>
        rw [List.take_succ_cons, List.take_succ_cons, ih j]

/-! ### Hash-distinctness is preserved everywhere -/

theorem DistinctHashes.of_sublist {l l' : List ClipboardEntry}
    (hs : l'.Sublist l) (h : DistinctHashes l) : DistinctHashes l' :=
  List.Pairwise.sublist hs h

theorem distinct_eraseFirstMatch (p : ClipboardEntry → Bool)
    {l : List ClipboardEntry} (h : DistinctHashes l) :
    DistinctHashes (eraseFirstMatch p l) :=
  h.of_sublist (eraseFirstMatch_sublist p l)

theorem eraseFirstMatch_hash_free (hv : Nat) :
    ∀ {l : List ClipboardEntry}, DistinctHashes l →
      ∀ y ∈ eraseFirstMatch (fun x => x.content_hash == hv) l,
        y.content_hash ≠ hv := by
  intro l
  induction l with
  | nil => intro _ y hy; simp [eraseFirstMatch_nil] at hy
  | cons a xs ih =>
    intro hd y hy
    simp only [DistinctHashes, List.pairwise_cons] at hd
    obtain ⟨ha, hxs⟩ := hd
    rw [eraseFirstMatch_cons] at hy
    by_cases hp : a.content_hash == hv
    · rw [if_pos hp] at hy
      have : a.content_hash = hv := by simpa using hp
      intro hcon
      exact ha y hy (by rw [this, hcon])
    · rw [if_neg hp] at hy
      rcases List.mem_cons.mp hy with hy | hy
      · subst hy; simpa using hp
      · exact ih hxs y hy

theorem distinct_dedupPushFront {acc : List ClipboardEntry}
    (h : DistinctHashes acc) (e : ClipboardEntry) :
    DistinctHashes (dedupPushFront acc e) := by
  simp only [dedupPushFront, DistinctHashes, List.pairwise_cons]
  constructor
  · intro y hy
    exact fun hc => eraseFirstMatch_hash_free e.content_hash h y hy hc.symm
  · exact distinct_eraseFirstMatch _ h

theorem distinct_relocate {l : List ClipboardEntry} (hv : Nat)
    (x : ClipboardEntry) (rest : List ClipboardEntry)
    (h : DistinctHashes l)
    (hr : removeFirstMatch (fun e => e.content_hash == hv) l
      = some (x, rest)) :
    DistinctHashes (x :: rest) := by
  have hrest : rest = eraseFirstMatch (fun e => e.content_hash == hv) l :=
    (removeFirstMatch_some_eraseFirstMatch _ l x rest hr).symm
  have hx : x.content_hash = hv := by
    have := (removeFirstMatch_some_get _ l x rest hr).1
    simpa using this
  simp only [DistinctHashes, List.pairwise_cons]
  constructor
  · intro y hy
    rw [hx, hrest] at *
    exact fun hc => eraseFirstMatch_hash_free hv h y hy hc.symm
  · rw [hrest]
    exact distinct_eraseFirstMatch _ h

theorem distinct_foldl_loadStep (H : Hasher) :
    ∀ (lines : List (Option PersistedEntry))
      (acc : List ClipboardEntry), DistinctHashes acc →
      DistinctHashes (lines.foldl (loadStep H) acc) := by
  intro lines
  induction lines with
  | nil => intro acc h; exact h
  | cons line rest ih =>
    intro acc h
    rw [List.foldl_cons]
    apply ih
    cases line with
    | none => exact h
    | some pe => exact distinct_dedupPushFront h (parseEntry H pe)

theorem distinct_loadFull (H : Hasher)
    (lines : List (Option PersistedEntry)) :
    DistinctHashes (loadFull H lines) :=
  distinct_foldl_loadStep H lines [] (by simp [DistinctHashes])

theorem distinct_load (H : Hasher) (maxH : Nat)
    (lines : List (Option PersistedEntry)) :
    DistinctHashes (load H maxH lines) := by
  rw [load, truncateBack_eq_take]
  exact (distinct_loadFull H lines).of_sublist (List.take_sublist _ _)

/-- What `delete_entry` does to the in-memory sequence. -/
theorem delete_entry_entries (s : Store) (i : Nat) :
    (delete_entry s i).entries =
      if i < s.entries.length then s.entries.eraseIdx i
      else s.entries := by
  rw [delete_entry, rewrite_history]
  by_cases h : i < s.entries.length
  · rw [if_pos h, if_pos h, List.getElem?_eq_getElem h]
  · rw [if_neg h, if_neg h]

theorem distinct_add_text (H : Hasher) (maxH : Nat) (s : Store)
    (c : String) (n : Int) (h : DistinctHashes s.entries) :
    DistinctHashes (add_text H maxH s c n).entries := by
  rw [add_text]
  by_cases he : (rustTrim c).data.isEmpty
  · rw [if_pos he]; exact h
  · rw [if_neg he]
    show DistinctHashes (cleanup_old_entries _ _ _).1
    rw [cleanup_fst]
    exact (distinct_dedupPushFront h _).of_sublist (List.take_sublist _ _)

theorem distinct_add_image (H : Hasher)
    (dc : List Nat → Option (Nat × Nat)) (maxH : Nat) (s : Store)
    (b : List Nat) (n : Int) (h : DistinctHashes s.entries) :
    DistinctHashes (add_image H dc maxH s b n).1.entries := by
  rw [add_image]
  cases hr : removeFirstMatch
      (fun x => x.content_hash == H.hashBytes b) s.entries with
  | some pr =>
    obtain ⟨x, rest⟩ := pr
    exact distinct_relocate (H.hashBytes b) x rest h hr
  | none =>
    cases hd : dc b with
    | none => exact h
    | some wh =>
      show DistinctHashes (cleanup_old_entries _ _ _).1
      rw [cleanup_fst]
      apply DistinctHashes.of_sublist (List.take_sublist _ _)
      simp only [DistinctHashes, List.pairwise_cons]
      constructor
      · intro y hy hc
        have := removeFirstMatch_none_forall _ s.entries hr y hy
        rw [new_image] at hc
        simp only at hc
        rw [← hc] at this
        simp at this
      · exact h

theorem distinct_delete_entry (s : Store) (i : Nat)
    (h : DistinctHashes s.entries) :
    DistinctHashes (delete_entry s i).entries := by
  rw [delete_entry_entries]
  by_cases hi : i < s.entries.length
  · rw [if_pos hi]
    exact h.of_sublist (List.eraseIdx_sublist s.entries i)
  · rw [if_neg hi]; exact h

theorem distinct_stepOp (H : Hasher)
    (dc : List Nat → Option (Nat × Nat)) (maxH : Nat) (s : Store)
    (op : Op) (h : DistinctHashes s.entries) :
    DistinctHashes (stepOp H dc maxH s op).entries := by
  cases op with
  | addText c n => exact distinct_add_text H maxH s c n h
  | addImage b n => exact distinct_add_image H dc maxH s b n h
  | deleteEntry i => exact distinct_delete_entry s i h
  | clear => simp [stepOp, clear, DistinctHashes]

theorem distinct_runOps (H : Hasher)
    (dc : List Nat → Option (Nat × Nat)) (maxH : Nat) :
    ∀ (ops : List Op) (s : Store), DistinctHashes s.entries →
      DistinctHashes (runOps H dc maxH ops s).entries := by
  intro ops
  induction ops with
  | nil => intro s h; exact h
  | cons op rest ih =>
    intro s h
    rw [runOps, List.foldl_cons]
    exact ih _ (distinct_stepOp H dc maxH s op h)

end CM

namespace CM

/-! ### Capacity is bounded everywhere -/

theorem add_text_length_le (H : Hasher) (maxH : Nat) (s : Store)
    (c : String) (n : Int) (h : s.entries.length ≤ maxH) :
    (add_text H maxH s c n).entries.length ≤ maxH := by
  rw [add_text]
  by_cases he : (rustTrim c).data.isEmpty
  · rw [if_pos he]; exact h
  · rw [if_neg he]
    show (cleanup_old_entries _ _ _).1.length ≤ maxH
    rw [cleanup_fst, List.length_take]
    omega

theorem add_image_length_le (H : Hasher)
    (dc : List Nat → Option (Nat × Nat)) (maxH : Nat) (s : Store)
    (b : List Nat) (n : Int) (h : s.entries.length ≤ maxH) :
    (add_image H dc maxH s b n).1.entries.length ≤ maxH := by
  rw [add_image]
  cases hr : removeFirstMatch
      (fun x => x.content_hash == H.hashBytes b) s.entries with
  | some pr =>
    obtain ⟨x, rest⟩ := pr
    show (x :: rest).length ≤ maxH
    have := removeFirstMatch_some_length _ s.entries x rest hr
    simp only [List.length_cons]
    omega
  | none =>
    cases hd : dc b with
    | none => exact h
    | some wh =>
      show (cleanup_old_entries _ _ _).1.length ≤ maxH
      rw [cleanup_fst, List.length_take]
      omega

theorem delete_entry_length_le (s : Store) (i : Nat)
    (h : s.entries.length ≤ maxH) :
    (delete_entry s i).entries.length ≤ maxH := by
  rw [delete_entry_entries]
  by_cases hi : i < s.entries.length
  · rw [if_pos hi]
    have := List.length_eraseIdx_add_one hi
    omega
  · rw [if_neg hi]; exact h

theorem load_length_le (H : Hasher) (maxH : Nat)
    (lines : List (Option PersistedEntry)) :
    (load H maxH lines).length ≤ maxH := by
  rw [load, truncateBack_eq_take, List.length_take]
  omega

theorem stepOp_length_le (H : Hasher)
    (dc : List Nat → Option (Nat × Nat)) (maxH : Nat) (s : Store)
    (op : Op) (h : s.entries.length ≤ maxH) :
    (stepOp H dc maxH s op).entries.length ≤ maxH := by
  cases op with
  | addText c n => exact add_text_length_le H maxH s c n h
  | addImage b n => exact add_image_length_le H dc maxH s b n h
  | deleteEntry i => exact delete_entry_length_le s i h
  | clear => simp [stepOp, clear]

theorem runOps_length_le (H : Hasher)
    (dc : List Nat → Option (Nat × Nat)) (maxH : Nat) :
    ∀ (ops : List Op) (s : Store), s.entries.length ≤ maxH →
      (runOps H dc maxH ops s).entries.length ≤ maxH := by
  intro ops
  induction ops with
  | nil => intro s h; exact h
  | cons op rest ih =>
    intro s h
    rw [runOps, List.foldl_cons]
    exact ih _ (stepOp_length_le H dc maxH s op h)

/-! ### The text-only append log replays to the in-memory sequence -/

theorem parseEntry_persist_new_text (H : Hasher) (c : String) (n : Int) :
    parseEntry H (persist (new_text H c n)) = new_text H c n := by
  simp [parseEntry, persist, new_text, compute_hash]

theorem loadFull_append_line (H : Hasher)
    (ls : List (Option PersistedEntry)) (line : Option PersistedEntry) :
    loadFull H (ls ++ [line]) = loadStep H (loadFull H ls) line := by
  simp [loadFull, List.foldl_append]

theorem replaysFile_add_text (H : Hasher) (maxH : Nat) (s : Store)
    (c : String) (n : Int) (h : ReplaysFile H maxH s) :
    ReplaysFile H maxH (add_text H maxH s c n) := by
  rw [ReplaysFile] at *
  rw [add_text]
  by_cases he : (rustTrim c).data.isEmpty
  · rw [if_pos he]; exact h
  · rw [if_neg he]
    show (cleanup_old_entries _ _ _).1
      = (loadFull H (_ ++ [some (persist _)])).take maxH
    rw [cleanup_fst, loadFull_append_line, loadStep,
      parseEntry_persist_new_text]
    rw [h]
    show List.take maxH (dedupPushFront ((loadFull H s.histFile).take maxH) _)
      = List.take maxH (dedupPushFront (loadFull H s.histFile) _)
    rw [dedupPushFront, dedupPushFront]
    cases maxH with
    | zero => simp
    | succ k =>
      rw [List.take_succ_cons, List.take_succ_cons,
        take_eraseFirstMatch]

theorem replaysFile_fold_add_text (H : Hasher) (maxH : Nat) :
    ∀ (xs : List (String × Int)) (s : Store), ReplaysFile H maxH s →
      ReplaysFile H maxH
        (xs.foldl (fun t pr => add_text H maxH t pr.1 pr.2) s) := by
  intro xs
  induction xs with
  | nil => intro s h; exact h
  | cons pr rest ih =>
    intro s h
    rw [List.foldl_cons]
    exact ih _ (replaysFile_add_text H maxH s pr.1 pr.2 h)

theorem replaysFile_new_empty (H : Hasher) (maxH : Nat) :
    ReplaysFile H maxH (new H maxH [] []) := by
  rw [ReplaysFile, new]
  simp [load, loadFull, truncateBack, truncate_loop]

theorem load_of_replaysFile (H : Hasher) (maxH : Nat) (s : Store)
    (h : ReplaysFile H maxH s) :
    load H maxH s.histFile = s.entries := by
  rw [load, truncateBack_eq_take, h]

end CM

namespace CM

theorem foldl_loadStep_filterMap (H : Hasher) :
    ∀ (lines : List (Option PersistedEntry))
      (acc : List ClipboardEntry),
      lines.foldl (loadStep H) acc =
        ((lines.filterMap id).map some).foldl (loadStep H) acc := by
  intro lines
  induction lines with
  | nil => intro acc; rfl
  | cons line rest ih =>
    intro acc
    cases line with
    | none =>
      show List.foldl (loadStep H) acc rest
        = List.foldl (loadStep H) acc ((rest.filterMap id).map some)
      exact ih acc
    | some pe =>
      show List.foldl (loadStep H) (loadStep H acc (some pe)) rest
        = List.foldl (loadStep H) (loadStep H acc (some pe))
            ((rest.filterMap id).map some)
      exact ih _

/-- C9: for every string whose trim is empty, `add_text` is a silent
no-op: the whole store state (sequence, backing file, blob directory) is
unchanged and no error is signalled. -/
theorem add_text_blank_noop (H : Hasher) (maxH : Nat) (s : Store)
    (c : String) (now : Int) (h : rustTrim c = "") :
    add_text H maxH s c now = s := by
  rw [add_text]
  rw [if_pos]
  rw [h]
  rfl

/-- Witness for C9 at the concrete inputs `""` and `"   "` against a
store holding three entries. -/
theorem add_text_blank_noop_witness :
    (rustTrim "" = "" ∧ add_text Hc 50 threeTexts "" 7 = threeTexts)
    ∧ (rustTrim "   " = ""
      ∧ add_text Hc 50 threeTexts "   " 7 = threeTexts) :=
  ⟨⟨by decide, add_text_blank_noop Hc 50 threeTexts "" 7 (by decide)⟩,
   ⟨by decide, add_text_blank_noop Hc 50 threeTexts "   " 7 (by decide)⟩⟩

/-- C8: `delete_entry` with an out-of-bounds index leaves the sequence
unchanged (no error), an in-bounds index removes exactly the entry at
that position in `get_all` order; concretely, with three entries,
`delete_entry 0` removes the newest and reconstructing the store from
the rewritten file shows only the remaining two. -/
theorem delete_entry_spec :
    (∀ (s : Store) (i : Nat),
      (delete_entry s i).entries =
        if i < s.entries.length then s.entries.eraseIdx i
        else s.entries)
    ∧ (get_all (delete_entry threeTexts 0)).map (fun e => e.content)
        = ["b", "a"]
    ∧ (get_all (new Hc 50 (delete_entry threeTexts 0).histFile [])).map
        (fun e => e.content) = ["b", "a"] :=
  ⟨delete_entry_entries, by decide, by decide⟩

/-- C7: `load` skips every malformed line and keeps the remaining valid
records: replaying any mix of parseable and malformed lines yields the
same sequence as replaying only the parseable ones, and construction is
total (it never fails). -/
theorem load_skips_malformed_lines (H : Hasher) (maxH : Nat)
    (lines : List (Option PersistedEntry)) :
    load H maxH lines = load H maxH ((lines.filterMap id).map some) := by
  rw [load, load, loadFull, loadFull, foldl_loadStep_filterMap]

end CM

namespace CM

/-- C2 counterexample: on a byte vector that fails to decode, `add_image`
returns an error and adds no entry, but the blob file HAS been written
(the write at `manager.rs:100` precedes the decode at `manager.rs:102`),
so a partial blob remains, contrary to the claim. -/
theorem decode_failure_blob_remains_cex :
    (add_image Hc dcNone 50 emptyStore [7] 5).2
        = Except.error "Failed to load image"
    ∧ get_all (add_image Hc dcNone 50 emptyStore [7] 5).1
        = get_all emptyStore
    ∧ (add_image Hc dcNone 50 emptyStore [7] 5).1.imagesDir
        = [("img_5.png", [7])]
    ∧ (add_image Hc dcNone 50 emptyStore [7] 5).1.imagesDir
        ≠ emptyStore.imagesDir := by
  refine ⟨rfl, rfl, rfl, ?_⟩
  decide

/-- C2 (amended): on a non-duplicate byte vector that fails to decode,
`add_image` returns an error, the sequence and the backing file are
unchanged, but the raw bytes have already been written to the image
directory and the blob remains. -/
theorem add_image_decode_failure (H : Hasher)
    (dc : List Nat → Option (Nat × Nat)) (maxH : Nat) (s : Store)
    (bytes : List Nat) (now : Int)
    (hr : removeFirstMatch
      (fun x => x.content_hash == H.hashBytes bytes) s.entries = none)
    (hd : dc bytes = none) :
    add_image H dc maxH s bytes now =
      ({ s with
          imagesDir := writeBlob s.imagesDir
            ("img_" ++ toString now ++ ".png") bytes },
       Except.error "Failed to load image") := by
  simp only [add_image, hr, hd]

/-- Witness for C2's amended theorem at a concrete undecodable input. -/
theorem add_image_decode_failure_witness :
    (removeFirstMatch
      (fun x => x.content_hash == Hc.hashBytes [7]) emptyStore.entries
      = none)
    ∧ (dcNone [7] = none)
    ∧ add_image Hc dcNone 50 emptyStore [7] 5 =
        ({ emptyStore with
            imagesDir := writeBlob emptyStore.imagesDir
              ("img_" ++ toString (5 : Int) ++ ".png") [7] },
         Except.error "Failed to load image") :=
  ⟨rfl, rfl,
    add_image_decode_failure Hc dcNone 50 emptyStore [7] 5 rfl rfl⟩

/-- C3: two distinct (non-duplicate) images captured within the same
second both receive the filename `img_5.png` — filename generation is
`img_{timestamp}.png` with second resolution and no counter, so the
claimed collision avoidance does not hold: the second write overwrites
the first blob, leaving both entries referencing the same file. -/
theorem same_second_filenames_collide :
    (get_all twoImagesSameSecond).map (fun e => e.content)
        = ["img_5.png", "img_5.png"]
    ∧ (get_all twoImagesSameSecond).length = 2
    ∧ DistinctHashes (get_all twoImagesSameSecond)
    ∧ twoImagesSameSecond.imagesDir = [("img_5.png", [1])] := by
  refine ⟨rfl, rfl, by decide, rfl⟩

/-- C6 counterexample: after two distinct images captured in the same
second, the in-memory sequence holds two entries, but replaying the
append log holds only one — the entries' hashes are recomputed on load
from `(filename, timestamp)`, which coincide for the two images, so the
replay merges them and does not reproduce the in-memory sequence. -/
theorem image_replay_not_round_trip_cex :
    (get_all twoImagesSameSecond).length = 2
    ∧ (load Hc 50 twoImagesSameSecond.histFile).length = 1 := by
  refine ⟨rfl, rfl⟩

end CM

namespace CM

/-- C4: starting from construction over any backing file and applying
any sequence of operations, the store never holds more than `maxH`
entries (in the shipped configuration `MAX_HISTORY = 50`); and with the
bound set to 2, adding "a", "b", "c" in order leaves exactly
`["c", "b"]`, the excess being evicted from the oldest end. -/
theorem capacity_invariant :
    (∀ (H : Hasher) (dc : List Nat → Option (Nat × Nat)) (maxH : Nat)
      (lines : List (Option PersistedEntry))
      (dir : List (String × List Nat)) (ops : List Op),
      (get_all (runOps H dc maxH ops (new H maxH lines dir))).length
        ≤ maxH)
    ∧ MAX_HISTORY = 50
    ∧ (get_all (runOps Hc dcOk 2
        [Op.addText "a" 1, Op.addText "b" 2, Op.addText "c" 3]
        (new Hc 2 [] []))).map (fun e => e.content) = ["c", "b"] := by
  refine ⟨?_, rfl, by decide⟩
  intro H dc maxH lines dir ops
  exact runOps_length_le H dc maxH ops _ (load_length_le H maxH lines)

/-- C5: after construction and any sequence of operations no two entries
share a `content_hash`; the same holds for the sequence `load` builds
when replaying the append log; and adding "hello" twice leaves exactly
one entry with content "hello", at the front. -/
theorem content_hash_uniqueness :
    (∀ (H : Hasher) (dc : List Nat → Option (Nat × Nat)) (maxH : Nat)
      (lines : List (Option PersistedEntry))
      (dir : List (String × List Nat)) (ops : List Op),
      DistinctHashes (get_all (runOps H dc maxH ops (new H maxH lines dir))))
    ∧ (∀ (H : Hasher) (maxH : Nat)
        (lines : List (Option PersistedEntry)),
        DistinctHashes (load H maxH lines))
    ∧ (get_all (runOps Hc dcOk 50
        [Op.addText "hello" 1, Op.addText "hello" 2]
        (new Hc 50 [] []))).map (fun e => e.content) = ["hello"] := by
  refine ⟨?_, ?_, by decide⟩
  · intro H dc maxH lines dir ops
    exact distinct_runOps H dc maxH ops _ (distinct_load H maxH lines)
  · intro H maxH lines
    exact distinct_load H maxH lines

/-- C6 (amended): for text histories the persist-then-reload round trip
is exact — replaying the append log produced by any sequence of
`add_text` calls from an empty data directory, with dedup on recomputed
hashes, reproduces the in-memory sequence (last occurrence wins,
most-recent-first); in particular after `add_text "x"`, destroying and
reconstructing the store yields `["x"]`. (For image entries the hash is
recomputed from filename and timestamp rather than raw bytes, and two
distinct images sharing both are merged on reload — see the
counterexample.) -/
theorem text_append_log_round_trip :
    (∀ (H : Hasher) (maxH : Nat) (xs : List (String × Int)),
      load H maxH
        (xs.foldl (fun t pr => add_text H maxH t pr.1 pr.2)
          (new H maxH [] [])).histFile
      = get_all (xs.foldl (fun t pr => add_text H maxH t pr.1 pr.2)
          (new H maxH [] [])))
    ∧ (get_all (new Hc 50
        (add_text Hc 50 (new Hc 50 [] []) "x" 1).histFile [])).map
          (fun e => e.content) = ["x"] := by
  refine ⟨?_, by decide⟩
  intro H maxH xs
  exact load_of_replaysFile H maxH _
    (replaysFile_fold_add_text H maxH xs _ (replaysFile_new_empty H maxH))

/-- C1 counterexample: with the backing file holding an entry "z"
written by another process (modification time 1, ahead of the recorded
baseline 0) and the in-memory sequence empty, the code's `add_text`
yields `["a"]` — it never stats the file, discards nothing and reloads
nothing — whereas the reconciling behaviour the claim describes would
yield `["a", "z"]`. -/
theorem add_text_does_not_reconcile_cex :
    staleState.baseline < staleState.fileMtime
    ∧ (get_all (add_text Hc 50 staleState.store "a" 5)).map
        (fun e => e.content) = ["a"]
    ∧ (get_all (spec_add_text_reconciling Hc 50 staleState "a" 5)).map
        (fun e => e.content) = ["a", "z"]
    ∧ add_text Hc 50 staleState.store "a" 5
        ≠ spec_add_text_reconciling Hc 50 staleState "a" 5 := by
  refine ⟨by decide, rfl, rfl, by decide⟩

/-- C1 (amended): mutating calls perform no reconciliation at all — the
resulting sequence and the returned status of `add_text` and `add_image`
are independent of the backing file's content (hence of any external
modification): they are applied directly to the in-memory state. -/
theorem mutations_ignore_backing_file (H : Hasher)
    (dc : List Nat → Option (Nat × Nat)) (maxH : Nat) (s : Store)
    (f : List (Option PersistedEntry)) (c : String) (b : List Nat)
    (n : Int) :
    get_all (add_text H maxH { s with histFile := f } c n)
        = get_all (add_text H maxH s c n)
    ∧ get_all (add_image H dc maxH { s with histFile := f } b n).1
        = get_all (add_image H dc maxH s b n).1
    ∧ (add_image H dc maxH { s with histFile := f } b n).2
        = (add_image H dc maxH s b n).2 := by
  refine ⟨?_, ?_, ?_⟩
  · show (add_text H maxH { s with histFile := f } c n).entries
      = (add_text H maxH s c n).entries
    rw [add_text, add_text]
    by_cases he : (rustTrim c).data.isEmpty
    · rw [if_pos he, if_pos he]
    · rw [if_neg he, if_neg he]; rfl
  · show (add_image H dc maxH { s with histFile := f } b n).1.entries
      = (add_image H dc maxH s b n).1.entries
    rw [add_image, add_image]
    cases hr : removeFirstMatch
        (fun x => x.content_hash == H.hashBytes b) s.entries with
    | some pr =>
      obtain ⟨x, rest⟩ := pr
      simp only [hr]; rfl
    | none =>
      simp only [hr]
      cases hd : dc b with
      | none => simp only [hd]
      | some wh => simp only [hd]; rfl
  · rw [add_image, add_image]
    cases hr : removeFirstMatch
        (fun x => x.content_hash == H.hashBytes b) s.entries with
    | some pr =>
      obtain ⟨x, rest⟩ := pr
      simp only [hr]
    | none =>
      simp only [hr]
      cases hd : dc b with
      | none => simp only [hd]
      | some wh => simp only [hd]

/-- C10: when the raw-byte hash of an `add_image` call matches an
existing entry, that entry — itself, with content filename, timestamp,
`image_info` and `content_hash` untouched — is relocated to the front,
the call succeeds, no blob is written (the image directory is
unchanged), the relocation is persisted as an append, and the remaining
entries are exactly the original sequence with that one position
removed. -/
theorem add_image_duplicate_relocates (H : Hasher)
    (dc : List Nat → Option (Nat × Nat)) (maxH : Nat) (s : Store)
    (bytes : List Nat) (now : Int) (x : ClipboardEntry)
    (rest : List ClipboardEntry)
    (hr : removeFirstMatch
      (fun e => e.content_hash == H.hashBytes bytes) s.entries
      = some (x, rest)) :
    add_image H dc maxH s bytes now =
      ({ s with
          entries := x :: rest
          histFile := s.histFile ++ [some (persist x)] },
       Except.ok ())
    ∧ ∃ i, ∃ h : i < s.entries.length,
        s.entries.get ⟨i, h⟩ = x ∧ rest = s.entries.eraseIdx i := by
  constructor
  · simp only [add_image, hr]
    rfl
  · obtain ⟨_, i, hi, hget, hrest⟩ :=
      removeFirstMatch_some_get _ s.entries x rest hr
    exact ⟨i, hi, hget, hrest⟩

/-- Witness for C10: re-adding the bytes `[0]` already held by
`oneImage` relocates the existing entry unchanged. -/
theorem add_image_duplicate_relocates_witness :
    (removeFirstMatch
      (fun e => e.content_hash == Hc.hashBytes [0]) oneImage.entries
      = some (dupEntry, []))
    ∧ (add_image Hc dcOk 50 oneImage [0] 9 =
        ({ oneImage with
            entries := dupEntry :: []
            histFile := oneImage.histFile ++ [some (persist dupEntry)] },
         Except.ok ())
      ∧ ∃ i, ∃ h : i < oneImage.entries.length,
          oneImage.entries.get ⟨i, h⟩ = dupEntry
          ∧ ([] : List ClipboardEntry) = oneImage.entries.eraseIdx i) :=
  ⟨by decide,
   add_image_duplicate_relocates Hc dcOk 50 oneImage [0] 9 dupEntry []
     (by decide)⟩

end CM
